import Mathlib

/-!
Formal model of the Chunk Retrieval Index of the RAG-model repository.

The definitions below are shallow embeddings of the Python source:
* `src/app/vectore_store.py` — class `VectorStore` (`encode_text`, `add_chunks`,
  `delete_chunks`, `search`, `save_index`, `load_index`);
* `src/app/utils.py` — `chunk_text`;
* `src/backend/src/services/vector_service.py` — the backend variant of
  `VectorStore`, whose `add_chunks` and `search` call `self.encode_text`
  although the class defines no such method.

Modelling conventions: numpy float vectors become lists of rationals (exact
arithmetic in place of IEEE floats) except for the L2-normalisation facts,
which need a square root and are stated over the reals; the sentence
transformer model is an opaque parameter `enc` which may fail (a raised
exception becomes `Except.error`); the pair of snapshot files written by
`save_index` and read by `load_index` becomes one optional pair `disk`
(`save_index` always writes both files, `load_index` proceeds only when both
exist); Python `int` becomes `ℤ` and Python string slicing is modelled
exactly, including clamping, by `pySlice`.
-/

namespace RAGModel

/-- A stored embedding vector (numpy `float32` row, modelled exactly). -/
abbrev Vec := List ℚ

/-- A chunk identity: the `(chunk_id, doc_id)` pair that `main.py` passes to
`add_chunks` / `delete_chunks` (`chunk_keys = [(chunk.chunk_id, chunk.doc_id) ...]`). -/
abbrev ChunkId := ℤ × ℤ

/-- Failure of the embedding model while encoding a text (an exception raised
inside `self.model.encode`). -/
inductive EmbErr where
  | modelFailure
deriving DecidableEq

/-- State of `app.vectore_store.VectorStore`: the FAISS `IndexFlatIP` contents
(`index`, vectors in insertion order), the parallel identity list
(`chunk_ids`), and the snapshot on disk (`faiss_index.bin` together with
`chunk_metadata.pkl`, present either both or not at all). -/
structure VectorStore where
  index : List Vec
  chunk_ids : List ChunkId
  disk : Option (List Vec × List ChunkId)
deriving DecidableEq

/-- A freshly constructed store before any snapshot exists. -/
def emptyStore : VectorStore := ⟨[], [], none⟩

/-- `save_index`: `faiss.write_index(self.index, ...)` and
`pickle.dump(self.chunk_ids, ...)` — a full snapshot of both parts. -/
def save_index (s : VectorStore) : VectorStore :=
  { s with disk := some (s.index, s.chunk_ids) }

/-- `load_index`: if both snapshot files exist, replace `index` and
`chunk_ids` with their deserialised contents; otherwise do nothing. -/
def load_index (s : VectorStore) : VectorStore :=
  match s.disk with
  | some p => { s with index := p.1, chunk_ids := p.2 }
  | none => s

/-- The `for text in texts: embeddings.append(self.encode_text(text)[0])`
loop of `add_chunks`: encode left to right, aborting at the first failure. -/
def encList (enc : String → Except EmbErr Vec) : List String → Except EmbErr (List Vec)
  | [] => .ok []
  | t :: ts =>
    match enc t with
    | .error e => .error e
    | .ok v =>
      match encList enc ts with
      | .error e => .error e
      | .ok vs => .ok (v :: vs)

/-- `add_chunks(texts, chunk_ids)`: embed every text, then (only if the list
of embeddings is non-empty) append the embeddings to the FAISS index, extend
`chunk_ids`, and save. A raised embedding exception propagates before any
mutation. -/
def add_chunks (enc : String → Except EmbErr Vec) (s : VectorStore)
    (texts : List String) (ids : List ChunkId) : Except EmbErr VectorStore :=
  match encList enc texts with
  | .error e => .error e
  | .ok embs =>
    if embs.isEmpty then .ok s
    else .ok (save_index { s with index := s.index ++ embs, chunk_ids := s.chunk_ids ++ ids })

/-- The `for i, chunk_id in enumerate(self.chunk_ids)` loop of
`delete_chunks`, producing the `(i, chunk_id)` pairs that are kept
(`indices_to_keep` zipped with `new_chunk_ids`). -/
def keptEntries (del : List ChunkId) : ℕ → List ChunkId → List (ℕ × ChunkId)
  | _, [] => []
  | i, c :: cs =>
    if c ∈ del then keptEntries del (i + 1) cs
    else (i, c) :: keptEntries del (i + 1) cs

/-- `delete_chunks(chunk_ids_to_delete)`: early return on an empty delete
list; otherwise rebuild — keep every `(position, id)` whose id is not in the
delete list, read the kept vectors back from the old index by position
(`self.index.reconstruct(i)`), install them in a fresh index, and save. -/
def delete_chunks (s : VectorStore) (del : List ChunkId) : VectorStore :=
  if del.isEmpty then s
  else
    let kept := keptEntries del 0 s.chunk_ids
    if kept.isEmpty then
      save_index { s with index := [], chunk_ids := [] }
    else
      save_index { s with
        index := kept.map (fun p => s.index.getD p.1 []),
        chunk_ids := kept.map Prod.snd }

/-- Inner product of two vectors (`IndexFlatIP` similarity). -/
def dot (a b : Vec) : ℚ := ((a.zip b).map (fun p => p.1 * p.2)).sum

/-- Ranking order used by FAISS output: higher score first. -/
def scoreRel (a b : ℕ × ℚ) : Prop := b.2 ≤ a.2

instance : DecidableRel scoreRel := fun a b => inferInstanceAs (Decidable (b.2 ≤ a.2))

instance : IsTotal (ℕ × ℚ) scoreRel := ⟨fun a b => le_total b.2 a.2⟩

instance : IsTrans (ℕ × ℚ) scoreRel := ⟨fun _ _ _ h1 h2 => le_trans h2 h1⟩

/-- `self.index.search(query_embedding, k)`: the positions of the stored
vectors with their inner-product scores, ordered by descending score, the
first `k` of them. -/
def indexSearch (vecs : List Vec) (q : Vec) (k : ℕ) : List (ℕ × ℚ) :=
  (List.insertionSort scoreRel ((vecs.map (dot q)).enum)).take k

/-- Errors a `search` call can raise: an embedding failure while encoding the
query, or the FAISS runtime assertion rejecting a non-positive `k`. -/
inductive SearchErr where
  | emb (e : EmbErr)
  | faissKNonPositive
deriving DecidableEq

/-- `search(query, threshold, k)`: empty index short-circuits to `[]`; then
the query is encoded, FAISS ranks the stored vectors (raising if `k <= 0`),
and results scoring at least `threshold` are mapped through `chunk_ids` by
position. -/
def search (enc : String → Except EmbErr Vec) (s : VectorStore)
    (q : String) (threshold : ℚ) (k : ℤ) : Except SearchErr (List (ChunkId × ℚ)) :=
  if s.index.length = 0 then .ok []
  else
    match enc q with
    | .error e => .error (.emb e)
    | .ok qv =>
      if k ≤ 0 then .error .faissKNonPositive
      else
        .ok (((indexSearch s.index qv k.toNat).filter (fun p => threshold ≤ p.2)).map
          (fun p => (s.chunk_ids.getD p.1 (0, 0), p.2)))

/-- One mutating or persistence operation on the store. -/
inductive StoreOp where
  | add (texts : List String) (ids : List ChunkId)
  | del (ids : List ChunkId)
  | save
  | load

/-- Run one operation; a failed `add_chunks` leaves the state untouched (the
exception propagates to the caller). -/
def runOp (enc : String → Except EmbErr Vec) (s : VectorStore) : StoreOp → VectorStore
  | .add ts ids =>
    match add_chunks enc s ts ids with
    | .ok s' => s'
    | .error _ => s
  | .del ids => delete_chunks s ids
  | .save => save_index s
  | .load => load_index s

/-- Run a sequence of operations from left to right. -/
def runOps (enc : String → Except EmbErr Vec) (s : VectorStore) (ops : List StoreOp) : VectorStore :=
  ops.foldl (runOp enc) s

/-- An `add` operation is well formed when, as in the spec contract
`add(items : sequence of (text, ChunkIdentity))`, each text is paired with
one identity: the two argument lists have equal length. -/
def wfOp : StoreOp → Bool
  | .add ts ids => ts.length == ids.length
  | _ => true

/-- Ghost model used to state positional alignment: the store as one list of
`(identity, vector)` pairs, with the snapshot holding the same pair list. -/
structure PairedStore where
  entries : List (ChunkId × Vec)
  disk : Option (List (ChunkId × Vec))

/-- The paired store of a fresh construction. -/
def emptyPaired : PairedStore := ⟨[], none⟩

/-- Pair-level effect of `add_chunks`. -/
def pairAdd (enc : String → Except EmbErr Vec) (p : PairedStore)
    (texts : List String) (ids : List ChunkId) : PairedStore :=
  match encList enc texts with
  | .error _ => p
  | .ok embs =>
    if embs.isEmpty then p
    else
      let es := p.entries ++ ids.zip embs
      ⟨es, some es⟩

/-- The survival test of `delete_chunks`: `chunk_id not in chunk_ids_to_delete`. -/
def keepId (del : List ChunkId) (c : ChunkId) : Bool := decide (c ∉ del)

/-- The survival test lifted to an `(identity, vector)` entry. -/
def keepEntry (del : List ChunkId) (e : ChunkId × Vec) : Bool := keepId del e.1

/-- Pair-level effect of `delete_chunks`. -/
def pairDel (p : PairedStore) (del : List ChunkId) : PairedStore :=
  if del.isEmpty then p
  else
    let es := p.entries.filter (keepEntry del)
    ⟨es, some es⟩

/-- Pair-level effect of one operation. -/
def runPairOp (enc : String → Except EmbErr Vec) (p : PairedStore) : StoreOp → PairedStore
  | .add ts ids => pairAdd enc p ts ids
  | .del ids => pairDel p ids
  | .save => { p with disk := some p.entries }
  | .load =>
    match p.disk with
    | some es => { p with entries := es }
    | none => p

/-- Pair-level run of a sequence of operations. -/
def runPairOps (enc : String → Except EmbErr Vec) (p : PairedStore) (ops : List StoreOp) : PairedStore :=
  ops.foldl (runPairOp enc) p

/-- The concrete store is the componentwise projection of the paired store. -/
def Tracks (s : VectorStore) (p : PairedStore) : Prop :=
  s.chunk_ids = p.entries.map Prod.fst ∧
  s.index = p.entries.map Prod.snd ∧
  s.disk = p.disk.map (fun es => (es.map Prod.snd, es.map Prod.fst))

/-! ## Chunker (`src/app/utils.py`, `chunk_text`) -/

/-- Adjust one Python slice bound for a sequence of length `len`: negative
bounds count from the end, and both ends clamp into `[0, len]`. -/
def pyIdx (len i : ℤ) : ℤ :=
  if i < 0 then max (len + i) 0 else min i len

/-- Python `text[a:b]` on a list of characters. -/
def pySlice (text : List Char) (a b : ℤ) : List Char :=
  (text.take (pyIdx text.length b).toNat).drop (pyIdx text.length a).toNat

/-- The `while start < len(text)` loop of `chunk_text`, with an explicit fuel
bound on the number of iterations: `none` means the loop did not finish
within `fuel` iterations. Each iteration slices `text[start : start + cs]`,
then sets `start = end - overlap` and breaks if that is already past the end
of the text. -/
def chunkLoop (text : List Char) (cs ov : ℤ) : ℕ → ℤ → Option (List (List Char))
  | 0, _ => none
  | fuel + 1, start =>
    if start < (text.length : ℤ) then
      let c := pySlice text start (start + cs)
      let nxt := start + cs - ov
      if (text.length : ℤ) ≤ nxt then some [c]
      else
        match chunkLoop text cs ov fuel nxt with
        | none => none
        | some rest => some (c :: rest)
    else some []

/-- `chunk_text(text, chunk_size, overlap)`, run for at most `fuel` loop
iterations starting from `start = 0`. -/
def chunk_text (text : List Char) (cs ov : ℤ) (fuel : ℕ) : Option (List (List Char)) :=
  chunkLoop text cs ov fuel 0

/-- The spec reading of "consecutive segments overlap by exactly `overlap`
characters": segment `i` covers text positions
`[i*(cs-ov), i*(cs-ov) + len_i)` and segment `i+1` starts at
`(i+1)*(cs-ov)`, so the two share `len_i - (cs - ov)` positions, which the
spec asserts equals `ov` for every consecutive pair. -/
def exactOverlap (cs ov : ℤ) (chunks : List (List Char)) : Prop :=
  ∀ i : ℕ, i + 1 < chunks.length →
    (((chunks.getD i []).length : ℤ)) - (cs - ov) = ov

/-! ## Embedder (`src/app/vectore_store.py`, `encode_text`)

`encode_text` runs the sentence transformer and divides the raw embedding by
its L2 norm, unconditionally: `embedding / np.linalg.norm(embedding, ...)`.
The norm needs a square root, so these definitions are over `ℝ`. -/

/-- L2 norm of a real vector. -/
noncomputable def norm2 (v : List ℝ) : ℝ :=
  Real.sqrt (v.map (fun x => x * x)).sum

/-- The division `embedding / np.linalg.norm(embedding, axis=1, keepdims=True)`
applied to one row. -/
noncomputable def normalizeL2 (v : List ℝ) : List ℝ :=
  v.map (fun x => x / norm2 v)

/-- `encode_text(text)` as a function of the raw model output `raw text`:
normalise and return. The body contains no guard and no raise: every input,
zero-norm raw embeddings included, reaches the `return`. -/
noncomputable def encode_text (raw : String → List ℝ) (text : String) :
    Except EmbErr (List ℝ) :=
  .ok (normalizeL2 (raw text))

/-- A raw model that outputs the zero vector, exhibiting the zero-norm case. -/
def rawZero : String → List ℝ := fun _ => [0, 0]

/-! ## Backend variant (`src/backend/src/services/vector_service.py`)

The backend `VectorStore` has the same shape of state, but its `add_chunks`
and `search` both call `self.encode_text(...)` while the class body defines
only `__init__`, `add_chunks`, `delete_chunks`, `search`, `save_index` and
`load_index` — there is no `encode_text` attribute to find. -/

/-- Result of looking up the attribute `encode_text` on the backend
`VectorStore`: the class defines no such method, so the lookup fails
(`none`). -/
def backendEncodeText : Option (String → Vec) := none

/-- The Python errors of the backend paths: the failed attribute lookup, and
the FAISS runtime assertion on a non-positive `k`. -/
inductive BackendErr where
  | attributeError
  | faissKNonPositive
deriving DecidableEq

/-- Backend `add_chunks`: with an empty `texts` the loop body never runs and
`if embeddings:` is false, so the call is a no-op; with a non-empty `texts`
the first iteration evaluates `self.encode_text`, whose lookup fails. -/
def backend_add_chunks (s : VectorStore) (texts : List String) (ids : List ChunkId) :
    Except BackendErr VectorStore :=
  match texts with
  | [] => .ok s
  | _ :: _ =>
    match backendEncodeText with
    | none => .error .attributeError
    | some enc =>
      .ok (save_index { s with index := s.index ++ texts.map enc, chunk_ids := s.chunk_ids ++ ids })

/-- Backend `search`: the empty-index fast path returns `[]` before anything
else; otherwise `self.encode_text(query)` is evaluated, whose lookup fails. -/
def backend_search (s : VectorStore) (q : String) (threshold : ℚ) (k : ℤ) :
    Except BackendErr (List (ChunkId × ℚ)) :=
  if s.index.length = 0 then .ok []
  else
    match backendEncodeText with
    | none => .error .attributeError
    | some enc =>
      if k ≤ 0 then .error .faissKNonPositive
      else
        .ok (((indexSearch s.index (enc q) k.toNat).filter (fun p => threshold ≤ p.2)).map
          (fun p => (s.chunk_ids.getD p.1 (0, 0), p.2)))

/-! ## Concrete fixtures used by witnesses and counterexamples -/

/-- An embedding model that encodes every text to the unit vector `[1, 0]`. -/
def encUnit : String → Except EmbErr Vec := fun _ => .ok [1, 0]

/-- An embedding model that fails on every text. -/
def encFail : String → Except EmbErr Vec := fun _ => .error .modelFailure

/-- A store holding one vector with identity `(1, 0)`. -/
def oneStore : VectorStore := ⟨[[1, 0]], [(1, 0)], none⟩

/-- The three-chunk store of the spec scenario: identities `(1,0)`, `(1,1)`,
`(1,2)` with vectors `[1,0]`, `[0,1]`, `[7/10, 7/10]`. -/
def threeStore : VectorStore :=
  ⟨[[1, 0], [0, 1], [7/10, 7/10]], [(1, 0), (1, 1), (1, 2)], none⟩

/-- A raw model output of nonzero norm. -/
def rawThreeFour : String → List ℝ := fun _ => [3, 4]

/-! ## Helper lemmas -/

/-- If the whole `encList` run succeeds, it produced one vector per text. -/
theorem encList_ok_length (enc : String → Except EmbErr Vec) :
    ∀ (ts : List String) (vs : List Vec), encList enc ts = .ok vs → vs.length = ts.length := by
  intro ts
  induction ts with
  | nil => intro vs h; simp [encList] at h; simp [h.symm]
  | cons t ts ih =>
    intro vs h
    cases h1 : enc t with
    | error e => simp [encList, h1] at h
    | ok v =>
      cases h2 : encList enc ts with
      | error e => simp [encList, h1, h2] at h
      | ok vs0 =>
        simp [encList, h1, h2] at h
        simp [h.symm, ih vs0 h2]

/-- If some text of the batch fails to encode, the whole `encList` run fails. -/
theorem encList_error_of_mem (enc : String → Except EmbErr Vec) :
    ∀ ts : List String, (∃ t ∈ ts, ∃ e, enc t = .error e) →
      ∃ e, encList enc ts = .error e := by
  intro ts
  induction ts with
  | nil => intro h; simp at h
  | cons t ts ih =>
    intro h
    cases h1 : enc t with
    | error e => exact ⟨e, by simp [encList, h1]⟩
    | ok v =>
      obtain ⟨t0, ht0, e0, he0⟩ := h
      rcases List.mem_cons.mp ht0 with rfl | hmem
      · rw [h1] at he0; exact absurd he0 (by simp)
      · obtain ⟨e, he⟩ := ih ⟨t0, hmem, e0, he0⟩
        exact ⟨e, by simp [encList, h1, he]⟩

/-- The `while` loop of `chunk_text` never exits once the start offset stops
advancing: with `cs ≤ ov` and a non-empty text, a non-positive start offset
stays non-positive, so no fuel bound suffices. -/
theorem chunkLoop_nonterm (text : List Char) (cs ov : ℤ)
    (hne : text ≠ []) (hco : cs ≤ ov) :
    ∀ (fuel : ℕ) (start : ℤ), start ≤ 0 → chunkLoop text cs ov fuel start = none := by
  intro fuel
  induction fuel with
  | zero => intro start _; rfl
  | succ n ih =>
    intro start hstart
    have hlen : 0 < (text.length : ℤ) := by
      have := List.length_pos.mpr hne
      exact_mod_cast this
    have h1 : start < (text.length : ℤ) := lt_of_le_of_lt hstart hlen
    have h2 : ¬ ((text.length : ℤ) ≤ start + cs - ov) := by omega
    simp only [chunkLoop, if_pos h1, if_neg h2]
    rw [ih (start + cs - ov) (by omega)]

/-- The second components of the kept `(position, id)` pairs are exactly the
identities surviving the delete filter, in order. -/
theorem keptEntries_map_snd (del : List ChunkId) :
    ∀ (l : List ChunkId) (i : ℕ),
      (keptEntries del i l).map Prod.snd = l.filter (keepId del) := by
  intro l
  induction l with
  | nil => intro i; rfl
  | cons c cs ih =>
    intro i
    by_cases hc : c ∈ del
    · have hkc : keepId del c = false := by simp [keepId, hc]
      simp only [keptEntries, if_pos hc, List.filter_cons, hkc, Bool.false_eq_true,
        if_false]
      exact ih (i + 1)
    · have hkc : keepId del c = true := by simp [keepId, hc]
      simp only [keptEntries, if_neg hc, List.filter_cons, hkc, if_true, List.map_cons]
      rw [ih (i + 1)]

/-- Reading the kept positions back from a store aligned with the entry list
returns exactly the vectors of the surviving entries, in order. -/
theorem keptEntries_map_getD (del : List ChunkId) :
    ∀ (es : List (ChunkId × Vec)) (i : ℕ) (big : List Vec),
      (∀ j : ℕ, big.getD (i + j) [] = (es.map Prod.snd).getD j []) →
      (keptEntries del i (es.map Prod.fst)).map (fun p => big.getD p.1 []) =
        (es.filter (keepEntry del)).map Prod.snd := by
  intro es
  induction es with
  | nil => intro i big _; rfl
  | cons e es ih =>
    intro i big hbig
    have hbig' : ∀ j : ℕ, big.getD (i + 1 + j) [] = (es.map Prod.snd).getD j [] := by
      intro j
      have hj := hbig (j + 1)
      have harith : i + (j + 1) = i + 1 + j := by omega
      rw [harith] at hj
      simpa using hj
    have h0 : big.getD i [] = e.2 := by
      have hj := hbig 0
      simpa using hj
    by_cases hc : e.1 ∈ del
    · have hkc : keepEntry del e = false := by simp [keepEntry, keepId, hc]
      simp only [List.map_cons, keptEntries, if_pos hc, List.filter_cons, hkc,
        Bool.false_eq_true, if_false]
      exact ih (i + 1) big hbig'
    · have hkc : keepEntry del e = true := by simp [keepEntry, keepId, hc]
      simp only [List.map_cons, keptEntries, if_neg hc, List.filter_cons, hkc, if_true]
      rw [ih (i + 1) big hbig', h0]

/-- Closed form of `delete_chunks` relative to any entry list whose
projections are the current identity list and vector store: unless the
delete list is empty (early return), the rebuilt store holds exactly the
surviving entries, and is saved. -/
theorem delete_chunks_eq (s : VectorStore) (es : List (ChunkId × Vec)) (del : List ChunkId)
    (h1 : s.chunk_ids = es.map Prod.fst) (h2 : s.index = es.map Prod.snd) :
    delete_chunks s del =
      if del.isEmpty then s
      else save_index { s with
        index := (es.filter (keepEntry del)).map Prod.snd,
        chunk_ids := (es.filter (keepEntry del)).map Prod.fst } := by
  have hcomp : (keepId del ∘ Prod.fst) = keepEntry del := by
    funext e
    rfl
  by_cases hd : del.isEmpty
  · simp [delete_chunks, hd]
  · have hsnd : (keptEntries del 0 s.chunk_ids).map Prod.snd =
        (es.filter (keepEntry del)).map Prod.fst := by
      rw [h1, keptEntries_map_snd, List.filter_map, hcomp]
    have hvec : (keptEntries del 0 s.chunk_ids).map (fun p => s.index.getD p.1 []) =
        (es.filter (keepEntry del)).map Prod.snd := by
      rw [h1]
      apply keptEntries_map_getD
      intro j
      rw [h2]
      simp
    rw [if_neg hd]
    by_cases hk : (keptEntries del 0 s.chunk_ids).isEmpty
    · have hnil : keptEntries del 0 s.chunk_ids = [] := List.isEmpty_iff.mp hk
      have hfil : es.filter (keepEntry del) = [] := by
        have hmapnil : (es.filter (keepEntry del)).map Prod.fst = [] := by
          rw [← hsnd, hnil]
          rfl
        exact List.map_eq_nil_iff.mp hmapnil
      simp [delete_chunks, hd, hk, hnil, hfil]
    · simp only [delete_chunks, if_neg hd, if_neg hk]
      rw [hvec, hsnd]

/-- Projections of an entry list zip back to the entry list. -/
theorem zip_map_proj : ∀ l : List (ChunkId × Vec), (l.map Prod.fst).zip (l.map Prod.snd) = l := by
  intro l
  rw [List.zip_map']
  simp

/-- Every single well-formed operation preserves the projection relation
between the concrete store and the paired ghost store. -/
theorem runOp_tracks (enc : String → Except EmbErr Vec) {s : VectorStore} {p : PairedStore}
    (hT : Tracks s p) (op : StoreOp) (hwf : wfOp op = true) :
    Tracks (runOp enc s op) (runPairOp enc p op) := by
  obtain ⟨hids, hidx, hdisk⟩ := hT
  cases op with
  | add ts ids =>
    have hlen : ts.length = ids.length := by simpa [wfOp] using hwf
    cases henc : encList enc ts with
    | error e =>
      simp only [runOp, add_chunks, henc, runPairOp, pairAdd]
      exact ⟨hids, hidx, hdisk⟩
    | ok embs =>
      have hel : embs.length = ts.length := encList_ok_length enc ts embs henc
      by_cases hemb : embs.isEmpty
      · simp only [runOp, add_chunks, henc, if_pos hemb, runPairOp, pairAdd]
        exact ⟨hids, hidx, hdisk⟩
      · have hzf : (ids.zip embs).map Prod.fst = ids :=
          List.map_fst_zip ids embs (by omega)
        have hzs : (ids.zip embs).map Prod.snd = embs :=
          List.map_snd_zip ids embs (by omega)
        simp only [runOp, add_chunks, henc, if_neg hemb, runPairOp, pairAdd, save_index]
        refine ⟨?_, ?_, ?_⟩
        · rw [List.map_append, hzf, hids]
        · rw [List.map_append, hzs, hidx]
        · show some (s.index ++ embs, s.chunk_ids ++ ids) =
            some ((p.entries ++ ids.zip embs).map Prod.snd,
              (p.entries ++ ids.zip embs).map Prod.fst)
          rw [List.map_append, List.map_append, hzf, hzs, hids, hidx]
  | del ids =>
    have heq := delete_chunks_eq s p.entries ids hids hidx
    by_cases hd : ids.isEmpty
    · simp only [runOp, heq, if_pos hd, runPairOp, pairDel]
      exact ⟨hids, hidx, hdisk⟩
    · simp only [runOp, heq, if_neg hd, runPairOp, pairDel, save_index]
      exact ⟨rfl, rfl, rfl⟩
  | save =>
    refine ⟨hids, hidx, ?_⟩
    show some (s.index, s.chunk_ids) = some (p.entries.map Prod.snd, p.entries.map Prod.fst)
    rw [hids, hidx]
  | load =>
    cases hpd : p.disk with
    | none =>
      have hsd : s.disk = none := by rw [hdisk, hpd]; rfl
      have hl : load_index s = s := by simp [load_index, hsd]
      have hp : runPairOp enc p .load = p := by simp [runPairOp, hpd]
      show Tracks (load_index s) (runPairOp enc p .load)
      rw [hl, hp]
      exact ⟨hids, hidx, hdisk⟩
    | some es =>
      have hsd : s.disk = some (es.map Prod.snd, es.map Prod.fst) := by
        rw [hdisk, hpd]
        rfl
      have hl : load_index s =
          { s with index := es.map Prod.snd, chunk_ids := es.map Prod.fst } := by
        simp [load_index, hsd]
      have hp : runPairOp enc p .load = { p with entries := es } := by
        simp [runPairOp, hpd]
      show Tracks (load_index s) (runPairOp enc p .load)
      rw [hl, hp]
      exact ⟨rfl, rfl, hdisk⟩

/-- Any sequence of well-formed operations preserves the projection
relation. -/
theorem runOps_tracks (enc : String → Except EmbErr Vec) :
    ∀ (ops : List StoreOp) {s : VectorStore} {p : PairedStore}, Tracks s p →
      (∀ op ∈ ops, wfOp op = true) →
      Tracks (runOps enc s ops) (runPairOps enc p ops) := by
  intro ops
  induction ops with
  | nil => intro s p hT _; exact hT
  | cons op ops ih =>
    intro s p hT hwf
    have h1 := runOp_tracks enc hT op (hwf op (by simp))
    have h2 := ih h1 (fun o ho => hwf o (by simp [ho]))
    simpa [runOps, runPairOps] using h2

/-- Length of a Python slice with a nonnegative in-range start and an end
bound at least the start. -/
theorem pySlice_length (text : List Char) (a b : ℤ)
    (ha : 0 ≤ a) (han : a ≤ (text.length : ℤ)) (hab : a ≤ b) :
    ((pySlice text a b).length : ℤ) = min b (text.length : ℤ) - a := by
  have hb0 : 0 ≤ b := le_trans ha hab
  unfold pySlice pyIdx
  rw [if_neg (not_lt.mpr ha), if_neg (not_lt.mpr hb0)]
  rw [List.length_drop, List.length_take]
  omega

/-- Full characterisation of the `chunk_text` loop when the start offset
advances (`ov < cs`): given enough fuel it finishes, the chunks are the
slices at starts `start, start + (cs-ov), start + 2(cs-ov), …`, each chunk
length is `min cs (len - its start)`, and every text position from `start`
on is covered by some chunk. -/
theorem chunkLoop_spec (text : List Char) (cs ov : ℤ) (hov : 0 ≤ ov) (hlt : ov < cs) :
    ∀ (fuel : ℕ) (start : ℤ), 0 ≤ start → start < (text.length : ℤ) →
      (text.length : ℤ) - start ≤ (fuel : ℤ) →
      ∃ out, chunkLoop text cs ov fuel start = some out ∧
        out ≠ [] ∧
        (∀ i : ℕ, i < out.length →
          out.getD i [] = pySlice text (start + i * (cs - ov)) (start + i * (cs - ov) + cs)) ∧
        (∀ i : ℕ, i < out.length →
          ((out.getD i []).length : ℤ) = min cs ((text.length : ℤ) - (start + i * (cs - ov)))) ∧
        (∀ p : ℤ, start ≤ p → p < (text.length : ℤ) →
          ∃ i : ℕ, i < out.length ∧ start + i * (cs - ov) ≤ p ∧
            p < start + i * (cs - ov) + ((out.getD i []).length : ℤ)) := by
  intro fuel
  induction fuel with
  | zero =>
    intro start h0 hlen hfuel
    exfalso
    simp only [Nat.cast_zero] at hfuel
    omega
  | succ n ih =>
    intro start h0 hlen hfuel
    have hclen : ((pySlice text start (start + cs)).length : ℤ) =
        min (start + cs) (text.length : ℤ) - start :=
      pySlice_length text start (start + cs) h0 (le_of_lt hlen) (by omega)
    by_cases hbrk : (text.length : ℤ) ≤ start + cs - ov
    · refine ⟨[pySlice text start (start + cs)], ?_, by simp, ?_, ?_, ?_⟩
      · simp only [chunkLoop, if_pos hlen, if_pos hbrk]
      · intro i hi
        have hi0 : i = 0 := by simpa using hi
        subst hi0
        simp only [List.getD_cons_zero, Nat.cast_zero, zero_mul, add_zero]
      · intro i hi
        have hi0 : i = 0 := by simpa using hi
        subst hi0
        simp only [List.getD_cons_zero, Nat.cast_zero, zero_mul, add_zero]
        rw [hclen]
        omega
      · intro p hp1 hp2
        refine ⟨0, by simp, ?_, ?_⟩
        · simpa using hp1
        · simp only [List.getD_cons_zero, Nat.cast_zero, zero_mul, add_zero]
          rw [hclen]
          omega
    · have h0' : 0 ≤ start + cs - ov := by omega
      have hlen' : start + cs - ov < (text.length : ℤ) := by omega
      have hfuel' : (text.length : ℤ) - (start + cs - ov) ≤ (n : ℤ) := by
        push_cast at hfuel ⊢
        omega
      obtain ⟨rest, hrest, hrne, hsl, hlf, hcov⟩ := ih (start + cs - ov) h0' hlen' hfuel'
      refine ⟨pySlice text start (start + cs) :: rest, ?_, by simp, ?_, ?_, ?_⟩
      · simp only [chunkLoop, if_pos hlen, if_neg hbrk, hrest]
      · intro i hi
        cases i with
        | zero => simp only [List.getD_cons_zero, Nat.cast_zero, zero_mul, add_zero]
        | succ j =>
          have hj : j < rest.length := by simpa using hi
          have hrec := hsl j hj
          simp only [List.getD_cons_succ]
          rw [hrec]
          have e1 : start + cs - ov + (j : ℤ) * (cs - ov) = start + ((j : ℕ) + 1 : ℕ) * (cs - ov) := by
            push_cast
            ring
          rw [e1]
      · intro i hi
        cases i with
        | zero =>
          simp only [List.getD_cons_zero, Nat.cast_zero, zero_mul, add_zero]
          rw [hclen]
          omega
        | succ j =>
          have hj : j < rest.length := by simpa using hi
          have hrec := hlf j hj
          simp only [List.getD_cons_succ]
          rw [hrec]
          have e1 : start + cs - ov + (j : ℤ) * (cs - ov) = start + ((j : ℕ) + 1 : ℕ) * (cs - ov) := by
            push_cast
            ring
          rw [e1]
      · intro p hp1 hp2
        by_cases hcase : start + cs - ov ≤ p
        · obtain ⟨i, hi, hb1, hb2⟩ := hcov p hcase hp2
          have e1 : start + ((i : ℕ) + 1 : ℕ) * (cs - ov) = start + cs - ov + (i : ℤ) * (cs - ov) := by
            push_cast
            ring
          refine ⟨i + 1, by simpa using Nat.succ_lt_succ hi, ?_, ?_⟩
          · rw [e1]
            exact hb1
          · simp only [List.getD_cons_succ]
            rw [e1]
            exact hb2
        · push_neg at hcase
          refine ⟨0, by simp, ?_, ?_⟩
          · simpa using hp1
          · simp only [List.getD_cons_zero, Nat.cast_zero, zero_mul, add_zero]
            rw [hclen]
            omega

/-! ## Claims -/

/-- C1. After any sequence of well-formed `add_chunks`, `delete_chunks`,
`save_index`, `load_index` operations from a fresh store, the identity list
and the vector store are the two projections of one list of
`(identity, vector)` pairs built by pairing each added vector with its
identity: they have equal length, and the identity at position `i` is the
one that was paired with the vector at position `i`. Quantifying over all
operation sequences makes this an invariant holding after each individual
operation. -/
theorem C1_identity_vector_alignment (enc : String → Except EmbErr Vec)
    (ops : List StoreOp) (h : ∀ op ∈ ops, wfOp op = true) :
    (runOps enc emptyStore ops).chunk_ids.length = (runOps enc emptyStore ops).index.length ∧
    (runOps enc emptyStore ops).chunk_ids =
      (runPairOps enc emptyPaired ops).entries.map Prod.fst ∧
    (runOps enc emptyStore ops).index =
      (runPairOps enc emptyPaired ops).entries.map Prod.snd := by
  have hT0 : Tracks emptyStore emptyPaired := ⟨rfl, rfl, rfl⟩
  obtain ⟨hids, hidx, _⟩ := runOps_tracks enc ops hT0 h
  refine ⟨?_, hids, hidx⟩
  rw [hids, hidx]
  simp

/-- Witness for C1 on a concrete add, save, delete, load sequence. -/
theorem C1_witness :
    (∀ op ∈ [StoreOp.add ["a", "b"] [(1, 0), (1, 1)], StoreOp.save,
        StoreOp.del [(1, 0)], StoreOp.load], wfOp op = true) ∧
    ((runOps encUnit emptyStore [StoreOp.add ["a", "b"] [(1, 0), (1, 1)], StoreOp.save,
        StoreOp.del [(1, 0)], StoreOp.load]).chunk_ids.length =
      (runOps encUnit emptyStore [StoreOp.add ["a", "b"] [(1, 0), (1, 1)], StoreOp.save,
        StoreOp.del [(1, 0)], StoreOp.load]).index.length ∧
    (runOps encUnit emptyStore [StoreOp.add ["a", "b"] [(1, 0), (1, 1)], StoreOp.save,
        StoreOp.del [(1, 0)], StoreOp.load]).chunk_ids =
      (runPairOps encUnit emptyPaired [StoreOp.add ["a", "b"] [(1, 0), (1, 1)], StoreOp.save,
        StoreOp.del [(1, 0)], StoreOp.load]).entries.map Prod.fst ∧
    (runOps encUnit emptyStore [StoreOp.add ["a", "b"] [(1, 0), (1, 1)], StoreOp.save,
        StoreOp.del [(1, 0)], StoreOp.load]).index =
      (runPairOps encUnit emptyPaired [StoreOp.add ["a", "b"] [(1, 0), (1, 1)], StoreOp.save,
        StoreOp.del [(1, 0)], StoreOp.load]).entries.map Prod.snd) :=
  ⟨by decide, C1_identity_vector_alignment encUnit
    [StoreOp.add ["a", "b"] [(1, 0), (1, 1)], StoreOp.save,
      StoreOp.del [(1, 0)], StoreOp.load] (by decide)⟩

/-- C2. On a store whose identity list and vector store are aligned,
`delete_chunks` retains exactly the entries whose identity is not in the
delete list, in their original relative order and with their vectors read
back unchanged from the old store; if the delete list covers every stored
identity the result is a valid empty index. -/
theorem C2_delete_rebuild (s : VectorStore) (del : List ChunkId)
    (h : s.chunk_ids.length = s.index.length) :
    (delete_chunks s del).chunk_ids.zip (delete_chunks s del).index =
      (s.chunk_ids.zip s.index).filter (keepEntry del) ∧
    ((∀ c ∈ s.chunk_ids, c ∈ del) →
      (delete_chunks s del).chunk_ids = [] ∧ (delete_chunks s del).index = []) := by
  have h1 : s.chunk_ids = (s.chunk_ids.zip s.index).map Prod.fst :=
    (List.map_fst_zip _ _ (le_of_eq h)).symm
  have h2 : s.index = (s.chunk_ids.zip s.index).map Prod.snd :=
    (List.map_snd_zip _ _ (ge_of_eq h)).symm
  have heq := delete_chunks_eq s (s.chunk_ids.zip s.index) del h1 h2
  have hall_nil : (∀ c ∈ s.chunk_ids, c ∈ del) →
      (s.chunk_ids.zip s.index).filter (keepEntry del) = [] := by
    intro hall
    apply List.filter_eq_nil_iff.mpr
    intro e he
    have hmem : e.1 ∈ s.chunk_ids := (List.of_mem_zip (by exact he)).1
    simp [keepEntry, keepId, hall e.1 hmem]
  by_cases hd : del.isEmpty
  · have hdel : del = [] := List.isEmpty_iff.mp hd
    subst hdel
    rw [heq]
    constructor
    · have hkeep : keepEntry ([] : List ChunkId) = fun _ => true := by
        funext e
        simp [keepEntry, keepId]
      rw [hkeep]
      simp
    · intro hall
      have hcnil : s.chunk_ids = [] := by
        cases hc : s.chunk_ids with
        | nil => rfl
        | cons a l => exact absurd (hall a (by simp [hc])) (by simp)
      have hinl : s.index = [] := by
        rw [hcnil] at h
        exact (List.length_eq_zero.mp h.symm)
      simp [hcnil, hinl]
  · rw [heq, if_neg hd]
    constructor
    · exact zip_map_proj _
    · intro hall
      rw [hall_nil hall]
      simp [save_index]

/-- Witness for C2: the three-chunk spec scenario, deleting identity `(1,0)`. -/
theorem C2_witness :
    threeStore.chunk_ids.length = threeStore.index.length ∧
    ((delete_chunks threeStore [(1, 0)]).chunk_ids.zip
        (delete_chunks threeStore [(1, 0)]).index =
      (threeStore.chunk_ids.zip threeStore.index).filter (keepEntry [(1, 0)]) ∧
    ((∀ c ∈ threeStore.chunk_ids, c ∈ [(1, 0)]) →
      (delete_chunks threeStore [(1, 0)]).chunk_ids = [] ∧
      (delete_chunks threeStore [(1, 0)]).index = [])) :=
  ⟨by decide, C2_delete_rebuild threeStore [(1, 0)] (by decide)⟩

/-- C3. For `k > 0`, whenever the query encodes, `search` succeeds with at
most `k` results, sorted by descending score, every result scoring at least
the threshold; on an empty index it returns the empty sequence without
error (with no condition on the encoder, since the fast path runs first). -/
theorem C3_search_contract (enc : String → Except EmbErr Vec) (s : VectorStore)
    (q : String) (t : ℚ) (k : ℤ) (hk : 0 < k) :
    (s.index = [] → search enc s q t k = .ok []) ∧
    (∀ v, enc q = .ok v → ∃ res,
      search enc s q t k = .ok res ∧
      (res.length : ℤ) ≤ k ∧
      res.Pairwise (fun a b => b.2 ≤ a.2) ∧
      ∀ p ∈ res, t ≤ p.2) := by
  constructor
  · intro h
    simp [search, h]
  · intro v hv
    by_cases hemp : s.index.length = 0
    · exact ⟨[], by simp [search, hemp], by simpa using hk.le, by simp, by simp⟩
    · have hk0 : ¬ (k ≤ 0) := not_le.mpr hk
      refine ⟨((indexSearch s.index v k.toNat).filter (fun p => t ≤ p.2)).map
        (fun p => (s.chunk_ids.getD p.1 (0, 0), p.2)), ?_, ?_, ?_, ?_⟩
      · simp [search, hemp, hv, hk0]
      · have hlen : (((indexSearch s.index v k.toNat).filter
            (fun p => t ≤ p.2)).map (fun p => (s.chunk_ids.getD p.1 (0, 0), p.2))).length ≤
            k.toNat := by
          rw [List.length_map]
          calc ((indexSearch s.index v k.toNat).filter (fun p => t ≤ p.2)).length
              ≤ (indexSearch s.index v k.toNat).length := List.length_filter_le _ _
            _ ≤ k.toNat := List.length_take_le _ _
        calc ((((indexSearch s.index v k.toNat).filter (fun p => t ≤ p.2)).map
              (fun p => (s.chunk_ids.getD p.1 (0, 0), p.2))).length : ℤ)
            ≤ (k.toNat : ℤ) := by exact_mod_cast hlen
          _ = k := Int.toNat_of_nonneg hk.le
      · apply List.pairwise_map.mpr
        have hsorted : (List.insertionSort scoreRel ((s.index.map (dot v)).enum)).Pairwise
            scoreRel := List.sorted_insertionSort scoreRel _
        have htake : (indexSearch s.index v k.toNat).Pairwise scoreRel :=
          hsorted.sublist (List.take_sublist _ _)
        exact (htake.sublist (List.filter_sublist _) : _)
      · intro p hp
        obtain ⟨a, ha, rfl⟩ := List.mem_map.mp hp
        have := (List.mem_filter.mp ha).2
        exact of_decide_eq_true this

/-- Witness for C3: a two-vector store, the spec scenario query, `k = 1`. -/
theorem C3_witness :
    ((0 : ℤ) < 1) ∧ (∃ res,
      search encUnit threeStore "q" (9/10) 1 = .ok res ∧
      (res.length : ℤ) ≤ 1 ∧
      res.Pairwise (fun a b => b.2 ≤ a.2) ∧
      ∀ p ∈ res, (9/10 : ℚ) ≤ p.2) :=
  ⟨by decide,
    (C3_search_contract encUnit threeStore "q" (9/10) 1 (by decide)).2 [1, 0] rfl⟩

/-- C4. If embedding any item of the batch fails, `add_chunks` raises and
commits no partial add: the index, the identity list and the snapshot are
all unchanged from the pre-call state. -/
theorem C4_add_atomic_on_embedding_failure (enc : String → Except EmbErr Vec)
    (s : VectorStore) (texts : List String) (ids : List ChunkId)
    (h : ∃ t ∈ texts, ∃ e, enc t = Except.error e) :
    (∃ e, add_chunks enc s texts ids = Except.error e) ∧
    runOp enc s (StoreOp.add texts ids) = s := by
  obtain ⟨e, he⟩ := encList_error_of_mem enc texts h
  exact ⟨⟨e, by simp [add_chunks, he]⟩, by simp [runOp, add_chunks, he]⟩

/-- Witness for C4 at a concrete failing batch. -/
theorem C4_witness :
    (∃ t ∈ ["a"], ∃ e, encFail t = Except.error e) ∧
    ((∃ e, add_chunks encFail oneStore ["a"] [(2, 0)] = Except.error e) ∧
      runOp encFail oneStore (StoreOp.add ["a"] [(2, 0)]) = oneStore) :=
  ⟨⟨"a", by simp, EmbErr.modelFailure, rfl⟩,
    C4_add_atomic_on_embedding_failure encFail oneStore ["a"] [(2, 0)]
      ⟨"a", by simp, EmbErr.modelFailure, rfl⟩⟩

/-- C5. `save_index` followed by `load_index` restores the index contents and
the identity list exactly, so `search` answers every fixed query with the
same identities, the same scores, in the same order as before the save. -/
theorem C5_save_load_roundtrip (enc : String → Except EmbErr Vec) (s : VectorStore)
    (q : String) (t : ℚ) (k : ℤ) :
    (load_index (save_index s)).index = s.index ∧
    (load_index (save_index s)).chunk_ids = s.chunk_ids ∧
    search enc (load_index (save_index s)) q t k = search enc s q t k :=
  ⟨rfl, rfl, rfl⟩

/-- C6. `chunk_text` does not terminate when `overlap >= chunk_size`: on the
two-character text `"ab"` with `chunk_size = 1`, `overlap = 1`, the loop
never finishes regardless of the iteration budget, instead of the
configuration being rejected or clamped. -/
theorem C6_chunk_text_nonterminating :
    ∀ fuel : ℕ, chunk_text ['a', 'b'] 1 1 fuel = none :=
  fun fuel => chunkLoop_nonterm ['a', 'b'] 1 1 (by decide) (by decide) fuel 0 le_rfl

/-- C7 (amended). For non-empty text and `0 ≤ overlap < chunk_size`,
`chunk_text` terminates (fuel `text.length` suffices), produces non-empty
output, segment `i` is the slice starting exactly `i * (chunk_size -
overlap)` characters into the text (so each segment starts `chunk_size -
overlap` after the previous one), the segments cover every character with no
gap, and consecutive segments share exactly
`min overlap (len - (i+1)*(chunk_size-overlap))` characters — which is
exactly `overlap` whenever the earlier segment has full length, but less for
a truncated earlier segment. -/
theorem C7_chunk_coverage (text : List Char) (cs ov : ℤ)
    (hne : text ≠ []) (hov : 0 ≤ ov) (hlt : ov < cs) :
    ∃ chunks, chunk_text text cs ov text.length = some chunks ∧
      chunks ≠ [] ∧
      (∀ i : ℕ, i < chunks.length →
        chunks.getD i [] = pySlice text (i * (cs - ov)) (i * (cs - ov) + cs)) ∧
      (∀ p : ℕ, p < text.length → ∃ i : ℕ, i < chunks.length ∧
        (i : ℤ) * (cs - ov) ≤ (p : ℤ) ∧
        (p : ℤ) < (i : ℤ) * (cs - ov) + ((chunks.getD i []).length : ℤ)) ∧
      (∀ i : ℕ, i + 1 < chunks.length →
        ((chunks.getD i []).length : ℤ) - (cs - ov) =
          min ov ((text.length : ℤ) - ((i : ℤ) + 1) * (cs - ov))) := by
  have hpos : 0 < (text.length : ℤ) := by
    have := List.length_pos.mpr hne
    exact_mod_cast this
  obtain ⟨out, hout, houtne, hsl, hlf, hcov⟩ :=
    chunkLoop_spec text cs ov hov hlt text.length 0 le_rfl hpos (by simp)
  refine ⟨out, hout, houtne, ?_, ?_, ?_⟩
  · intro i hi
    have hrec := hsl i hi
    simpa using hrec
  · intro p hp
    have hp2 : (p : ℤ) < (text.length : ℤ) := by exact_mod_cast hp
    obtain ⟨i, hi, hb1, hb2⟩ := hcov p (Int.ofNat_nonneg p) hp2
    exact ⟨i, hi, by simpa using hb1, by simpa using hb2⟩
  · intro i hi
    have hii : i < out.length := by omega
    have hf := hlf i hii
    rw [hf]
    have e1 : min cs ((text.length : ℤ) - (0 + (i : ℤ) * (cs - ov))) - (cs - ov) =
        min (cs - (cs - ov)) ((text.length : ℤ) - (0 + (i : ℤ) * (cs - ov)) - (cs - ov)) :=
      (min_sub_sub_right _ _ _).symm
    rw [e1]
    congr 1
    · ring
    · ring

/-- Witness for C7 at text `"abcdefghij"`, `chunk_size = 8`, `overlap = 4`. -/
theorem C7_witness :
    ("abcdefghij".toList ≠ [] ∧ (0 : ℤ) ≤ 4 ∧ (4 : ℤ) < 8) ∧
    (∃ chunks, chunk_text "abcdefghij".toList 8 4 "abcdefghij".toList.length = some chunks ∧
      chunks ≠ [] ∧
      (∀ i : ℕ, i < chunks.length →
        chunks.getD i [] = pySlice "abcdefghij".toList (i * (8 - 4)) (i * (8 - 4) + 8)) ∧
      (∀ p : ℕ, p < "abcdefghij".toList.length → ∃ i : ℕ, i < chunks.length ∧
        (i : ℤ) * (8 - 4) ≤ (p : ℤ) ∧
        (p : ℤ) < (i : ℤ) * (8 - 4) + ((chunks.getD i []).length : ℤ)) ∧
      (∀ i : ℕ, i + 1 < chunks.length →
        ((chunks.getD i []).length : ℤ) - (8 - 4) =
          min 4 (("abcdefghij".toList.length : ℤ) - ((i : ℤ) + 1) * (8 - 4)))) :=
  ⟨⟨by decide, by decide, by decide⟩,
    C7_chunk_coverage "abcdefghij".toList 8 4 (by decide) (by decide) (by decide)⟩

/-- Counterexample for C7 as stated: with text `"abcdefghij"`,
`chunk_size = 8`, `overlap = 4`, the produced segments are `"abcdefgh"`,
`"efghij"`, `"ij"`, and the pair of consecutive segments at index 1 shares
only `6 - 4 = 2` characters, not `overlap = 4`: the truncated middle segment
breaks the exact-overlap reading of the claim. -/
theorem C7_counterexample :
    chunk_text "abcdefghij".toList 8 4 10 =
      some ["abcdefgh".toList, "efghij".toList, "ij".toList] ∧
    ¬ exactOverlap 8 4 ["abcdefgh".toList, "efghij".toList, "ij".toList] := by
  constructor
  · decide
  · intro h
    exact absurd (h 1 (by decide)) (by decide)

/-- C8 (amended). `encode_text` has no failure path: it always returns the
raw embedding divided by its L2 norm, even when that norm is zero; whenever
the raw embedding has nonzero norm, the returned vector has L2 norm 1. -/
theorem C8_normalization (raw : String → List ℝ) (text : String) :
    encode_text raw text = Except.ok (normalizeL2 (raw text)) ∧
    (norm2 (raw text) ≠ 0 → norm2 (normalizeL2 (raw text)) = 1) := by
  refine ⟨rfl, ?_⟩
  intro h
  have hS0 : 0 ≤ ((raw text).map (fun x => x * x)).sum := by
    apply List.sum_nonneg
    intro x hx
    obtain ⟨y, _, rfl⟩ := List.mem_map.mp hx
    exact mul_self_nonneg y
  have hSne : ((raw text).map (fun x => x * x)).sum ≠ 0 := by
    intro hS
    exact h (by simp [norm2, hS])
  have key : ((normalizeL2 (raw text)).map (fun x => x * x)).sum = 1 := by
    unfold normalizeL2
    rw [List.map_map]
    have hfun : ((fun x => x * x) ∘ fun x => x / norm2 (raw text)) =
        fun x => (x * x) * (norm2 (raw text) * norm2 (raw text))⁻¹ := by
      funext x
      simp only [Function.comp_apply]
      rw [div_mul_div_comm, div_eq_mul_inv]
    rw [hfun, List.sum_map_mul_right]
    simp only [norm2, Real.mul_self_sqrt hS0]
    exact mul_inv_cancel₀ hSne
  simp only [norm2, key, Real.sqrt_one]

/-- Witness for C8 at the raw embedding `[3, 4]`, of norm 5. -/
theorem C8_witness :
    norm2 (rawThreeFour "x") ≠ 0 ∧ norm2 (normalizeL2 (rawThreeFour "x")) = 1 := by
  have hne : norm2 (rawThreeFour "x") ≠ 0 := by
    apply ne_of_gt
    apply Real.sqrt_pos.mpr
    norm_num [rawThreeFour]
  exact ⟨hne, (C8_normalization rawThreeFour "x").2 hne⟩

/-- Counterexample for C8 as stated: on a zero-norm raw embedding,
`encode_text` does not fail with an `EmbeddingError`; it divides anyway and
returns a value. -/
theorem C8_counterexample :
    norm2 (rawZero "x") = 0 ∧ encode_text rawZero "x" = Except.ok [0, 0] := by
  constructor
  · simp [norm2, rawZero]
  · simp [encode_text, normalizeL2, rawZero]

/-- C9 (amended). With `k ≤ 0`, `search` performs no validation of its own:
on an empty index the fast path returns `[]` with no error at all, and on a
non-empty index (once the query encodes) the FAISS call rejects `k` with a
runtime error — not the repository's `ValidationError`, which no code path
of `search` raises. No index mutation is attempted in either case. -/
theorem C9_search_nonpositive_k (enc : String → Except EmbErr Vec) (s : VectorStore)
    (q : String) (t : ℚ) (k : ℤ) (hk : k ≤ 0) :
    (s.index = [] → search enc s q t k = .ok []) ∧
    (∀ v, enc q = .ok v → s.index ≠ [] →
      search enc s q t k = .error SearchErr.faissKNonPositive) := by
  constructor
  · intro h
    simp [search, h]
  · intro v hv hne
    have hlen : ¬ (s.index.length = 0) := by
      simpa [List.length_eq_zero] using hne
    simp [search, hlen, hv, hk]

/-- Witness for C9 on a non-empty one-vector store with `k = 0`. -/
theorem C9_witness :
    ((0 : ℤ) ≤ 0) ∧
    search encUnit oneStore "q" (1/2) 0 = .error SearchErr.faissKNonPositive :=
  ⟨le_rfl, (C9_search_nonpositive_k encUnit oneStore "q" (1/2) 0 le_rfl).2 [1, 0] rfl
    (by decide)⟩

/-- Counterexample for C9 as stated: on a fresh empty store, `search` with
`k = 0` succeeds with the empty result instead of failing with a validation
error. -/
theorem C9_counterexample :
    search encUnit emptyStore "q" (1/2) 0 = Except.ok [] := rfl

/-- C10. In the backend variant, `add_chunks` on a non-empty batch and
`search` on a non-empty index both fail with an attribute error, because
both evaluate `self.encode_text` and the class defines no `encode_text`
method; neither operation can succeed on non-trivial input. -/
theorem C10_backend_missing_encode_text (s : VectorStore) (texts : List String)
    (ids : List ChunkId) (q : String) (t : ℚ) (k : ℤ) :
    (texts ≠ [] → backend_add_chunks s texts ids = .error BackendErr.attributeError) ∧
    (s.index ≠ [] → backend_search s q t k = .error BackendErr.attributeError) := by
  constructor
  · intro h
    cases texts with
    | nil => exact absurd rfl h
    | cons a l => rfl
  · intro h
    have hlen : ¬ (s.index.length = 0) := by
      simpa [List.length_eq_zero] using h
    simp [backend_search, hlen, backendEncodeText]

/-- Witness for C10 on a concrete non-empty batch and store. -/
theorem C10_witness :
    backend_add_chunks oneStore ["x"] [(2, 0)] = .error BackendErr.attributeError ∧
    backend_search oneStore "q" (1/2) 5 = .error BackendErr.attributeError :=
  ⟨(C10_backend_missing_encode_text oneStore ["x"] [(2, 0)] "q" (1/2) 5).1 (by simp),
    (C10_backend_missing_encode_text oneStore ["x"] [(2, 0)] "q" (1/2) 5).2 (by decide)⟩

end RAGModel
